import Mathlib

/-!
Shallow embedding of the key-encoding and nibble-comparison core of the
`radix_trie` crate (`src/keys.rs`): the `TrieKey` encoding contract, the
builtin encoders for byte/text/integer key types, the `match_keys`
nibble-sequence comparator and its `KeyMatch` result, and the `check_keys`
equality guard.

Machine integers are embedded as `Nat` (unsigned) and `Int` (signed) with
explicit range hypotheses and `% 256^w` where the source relies on the
fixed width.  A `NibbleVec` is embedded as a `List Nat` of values below
16.  A Rust `panic!` is embedded as `Except.error`.
-/

/-- The `KeyMatch` enum from `src/keys.rs`: the four-way result of
comparing two nibble sequences. -/
inductive KeyMatch where
  | Partial (idx : Nat)
  | FirstPrefix
  | SecondPrefix
  | Full
deriving DecidableEq

/-- The `for i in 0..min_length` loop body of `match_keys`: starting at
index `i` with `fuel` iterations remaining, return `some i` at the first
index where the nibble `first[start_idx + i]` differs from `second[i]`,
and `none` if the loop completes without a mismatch. -/
def match_keys_loop (start_idx : Nat) (first second : List Nat) :
    Nat → Nat → Option Nat
  | _, 0 => none
  | i, fuel + 1 =>
    if first.getD (start_idx + i) 0 ≠ second.getD i 0 then some i
    else match_keys_loop start_idx first second (i + 1) fuel

/-- The function `match_keys` from `src/keys.rs`: compare `first` (from
nibble offset `start_idx`) with `second`. -/
def match_keys (start_idx : Nat) (first second : List Nat) : KeyMatch :=
  let first_len := first.length - start_idx
  let min_length := min first_len second.length
  match match_keys_loop start_idx first second 0 min_length with
  | some i => KeyMatch.Partial i
  | none =>
    if first_len < second.length then KeyMatch.FirstPrefix
    else if first_len = second.length then KeyMatch.Full
    else KeyMatch.SecondPrefix

/-- Checked natural subtraction: `none` models the underflow panic of Rust
`usize` subtraction. -/
def checked_sub (a b : Nat) : Option Nat :=
  if b ≤ a then some (a - b) else none

/-- The `match_keys` loop with every nibble access checked: `none` models
an out-of-bounds access. -/
def match_keys_loop_checked (start_idx : Nat) (first second : List Nat) :
    Nat → Nat → Option (Option Nat)
  | _, 0 => some none
  | i, fuel + 1 =>
    match first.get? (start_idx + i), second.get? i with
    | some a, some b =>
      if a ≠ b then some (some i)
      else match_keys_loop_checked start_idx first second (i + 1) fuel
    | _, _ => none

/-- The comparator `match_keys` with the subtraction and every nibble
access checked: returns `none` exactly when the unchecked version would
fail. -/
def match_keys_checked (start_idx : Nat) (first second : List Nat) :
    Option KeyMatch :=
  match checked_sub first.length start_idx with
  | none => none
  | some first_len =>
    match match_keys_loop_checked start_idx first second 0
        (min first_len second.length) with
    | none => none
    | some (some i) => some ( KeyMatch.Partial i)
    | some none =>
      if first_len < second.length then some KeyMatch.FirstPrefix
      else if first_len = second.length then some KeyMatch.Full
      else some KeyMatch.SecondPrefix

/-- Modelled from the spec: `NibbleVec::from_byte_vec` of the external
nibble-sequence representation (not part of this repository) — each byte
becomes two nibbles, high nibble first, so the length is twice the byte
length. -/
def from_byte_vec (bytes : List Nat) : List Nat :=
  bytes.flatMap (fun b => [b / 16, b % 16])

/-- Big-endian byte string of width `w`: embeds `BigEndian<T>::as_bytes`
of the external `endian_type` crate as used by the `int_keys!` macro in
`src/keys.rs` — the `w` bytes of the value, most significant first. -/
def beBytes : Nat → Nat → List Nat
  | 0, _ => []
  | w + 1, a => a / 256 ^ w % 256 :: beBytes w a

/-- The encoder of `impl TrieKey for Vec<u8>`: `self.clone()`. -/
def encode_bytes_vec_u8 (v : List Nat) : List Nat := v

/-- The encoder of `impl TrieKey for &[u8]`: `self.to_vec()`. -/
def encode_bytes_slice_u8 (v : List Nat) : List Nat := v

/-- The encoder of `impl TrieKey for String`:
`self.as_bytes().encode_bytes()`.  A Rust `String` is determined by its
UTF-8 byte vector and string equality is byte-vector equality, so the key
is embedded as that byte list. -/
def encode_bytes_string (s : List Nat) : List Nat := encode_bytes_slice_u8 s

/-- The encoder of `impl TrieKey for &str`:
`self.as_bytes().encode_bytes()`. -/
def encode_bytes_str (s : List Nat) : List Nat := encode_bytes_slice_u8 s

/-- The encoder of `impl TrieKey for u8`: the single raw byte. -/
def encode_bytes_u8 (a : Nat) : List Nat := [a]

/-- The cast `*self as u8` applied to an `i8` value: the two's-complement
bit pattern as an unsigned byte, with no sign adjustment. -/
def i8_as_u8 (a : Int) : Nat := (a % 256).toNat

/-- The encoder of `impl TrieKey for i8`: the single raw byte, bit
pattern preserved. -/
def encode_bytes_i8 (a : Int) : List Nat := [i8_as_u8 a]

/-- The encoder of `impl TrieKey for u16` via `int_keys!`: wrap in
`BigEndian` and emit the raw bytes. -/
def encode_bytes_u16 (a : Nat) : List Nat := beBytes 2 a

/-- The encoder of `impl TrieKey for u32` via `int_keys!`. -/
def encode_bytes_u32 (a : Nat) : List Nat := beBytes 4 a

/-- The encoder of `impl TrieKey for u64` via `int_keys!`. -/
def encode_bytes_u64 (a : Nat) : List Nat := beBytes 8 a

/-- The encoder of `impl TrieKey for usize` via `int_keys!`
(pointer-sized; embedded at the 8-byte width of the 64-bit targets the
crate is built for). -/
def encode_bytes_usize (a : Nat) : List Nat := beBytes 8 a

/-- The encoder of `impl TrieKey for i16` via `int_keys!`: the
two's-complement bit pattern of the 16-bit value, big-endian. -/
def encode_bytes_i16 (a : Int) : List Nat := beBytes 2 (a % 256 ^ 2).toNat

/-- The encoder of `impl TrieKey for i32` via `int_keys!`. -/
def encode_bytes_i32 (a : Int) : List Nat := beBytes 4 (a % 256 ^ 4).toNat

/-- The encoder of `impl TrieKey for i64` via `int_keys!`. -/
def encode_bytes_i64 (a : Int) : List Nat := beBytes 8 (a % 256 ^ 8).toNat

/-- The encoder of `impl TrieKey for isize` via `int_keys!`
(pointer-sized, embedded at the 8-byte width). -/
def encode_bytes_isize (a : Int) : List Nat := beBytes 8 (a % 256 ^ 8).toNat

/-- The `TrieKey` trait contract: the one required operation of a key
type, `encode_bytes`. -/
structure TrieKey (α : Type) where
  encode_bytes : α → List Nat

/-- The derived method `TrieKey::encode`:
`NibbleVec::from_byte_vec(self.encode_bytes())`. -/
def TrieKey.encode {α : Type} (tk : TrieKey α) (k : α) : List Nat :=
  from_byte_vec (tk.encode_bytes k)

/-- The `TrieKey` instance for `Vec<u8>` keys. -/
def vec_u8_key : TrieKey (List Nat) := ⟨encode_bytes_vec_u8⟩

/-- The `TrieKey` instance for `&[u8]` keys. -/
def slice_u8_key : TrieKey (List Nat) := ⟨encode_bytes_slice_u8⟩

/-- The `TrieKey` instance for `String` keys. -/
def string_key : TrieKey (List Nat) := ⟨encode_bytes_string⟩

/-- The `TrieKey` instance for `&str` keys. -/
def str_key : TrieKey (List Nat) := ⟨encode_bytes_str⟩

/-- The guard `check_keys` from `src/keys.rs`: the `panic!` on unequal
keys is embedded as an `Except.error` carrying the panic message. -/
def check_keys {K : Type} [DecidableEq K] (key1 key2 : K) :
    Except String Unit :=
  if key1 ≠ key2 then
    Except.error "multiple-keys with the same bit representation."
  else Except.ok ()

/-- The default body of `TrieKey::encode_bytes` from `src/keys.rs`:
`panic!("implement this method or TrieKey::encode")`, embedded as an
error value. -/
def default_encode_bytes {α : Type} (_k : α) : Except String (List Nat) :=
  Except.error "implement this method or TrieKey::encode"

theorem match_keys_loop_eq_none (start_idx : Nat) (first second : List Nat) :
    ∀ fuel i,
      (∀ j, i ≤ j → j < i + fuel →
        first.getD (start_idx + j) 0 = second.getD j 0) →
      match_keys_loop start_idx first second i fuel = none := by
  intro fuel
  induction fuel with
  | zero => intro i _; rfl
  | succ k ih =>
    intro i hagree
    have h0 : first.getD (start_idx + i) 0 = second.getD i 0 :=
      hagree i le_rfl (by omega)
    simp only [match_keys_loop, h0, ne_eq, not_true_eq_false, if_false]
    exact ih (i + 1) (fun j h1 h2 => hagree j (by omega) (by omega))

theorem match_keys_loop_eq_some (start_idx : Nat) (first second : List Nat) :
    ∀ fuel i t, t < fuel →
      first.getD (start_idx + (i + t)) 0 ≠ second.getD (i + t) 0 →
      (∀ j, i ≤ j → j < i + t →
        first.getD (start_idx + j) 0 = second.getD j 0) →
      match_keys_loop start_idx first second i fuel = some (i + t) := by
  intro fuel
  induction fuel with
  | zero => intro i t ht; omega
  | succ k ih =>
    intro i t ht hdiff hagree
    match t with
    | 0 =>
      simp only [Nat.add_zero] at hdiff ⊢
      simp only [match_keys_loop, hdiff, ne_eq, not_false_eq_true, if_true]
    | t' + 1 =>
      have h0 : first.getD (start_idx + i) 0 = second.getD i 0 :=
        hagree i le_rfl (by omega)
      simp only [match_keys_loop, h0, ne_eq, not_true_eq_false, if_false]
      have := ih (i + 1) t' (by omega)
        (by
          have : i + 1 + t' = i + (t' + 1) := by omega
          rw [this]; exact hdiff)
        (fun j h1 h2 => hagree j (by omega) (by omega))
      rw [this]
      congr 1
      omega

/-- Claim C1: for start_offset ≤ length(first), `match_keys` returns
`Partial(i)` at the least index `i < min(length(first) - start_offset,
length(second))` where the nibbles differ, and otherwise classifies by
comparing `length(first) - start_offset` with `length(second)`:
strictly less gives FirstPrefix, equal gives Full, strictly greater gives
SecondPrefix. -/
theorem C1_match_keys_correct (s : Nat) (first second : List Nat)
    (h : s ≤ first.length) :
    (∀ i, i < min (first.length - s) second.length →
      first.getD (s + i) 0 ≠ second.getD i 0 →
      (∀ j, j < i → first.getD (s + j) 0 = second.getD j 0) →
      match_keys s first second = KeyMatch.Partial i) ∧
    ((∀ i, i < min (first.length - s) second.length →
        first.getD (s + i) 0 = second.getD i 0) →
      first.length - s < second.length →
      match_keys s first second = KeyMatch.FirstPrefix) ∧
    ((∀ i, i < min (first.length - s) second.length →
        first.getD (s + i) 0 = second.getD i 0) →
      first.length - s = second.length →
      match_keys s first second = KeyMatch.Full) ∧
    ((∀ i, i < min (first.length - s) second.length →
        first.getD (s + i) 0 = second.getD i 0) →
      second.length < first.length - s →
      match_keys s first second = KeyMatch.SecondPrefix) := by
  refine ⟨?_, ?_, ?_, ?_⟩
  · intro i hi hdiff hleast
    have hloop := match_keys_loop_eq_some s first second
      (min (first.length - s) second.length) 0 i hi
      (by simpa using hdiff)
      (by intro j h1 h2; simpa using hleast j (by omega))
    simp only [Nat.zero_add] at hloop
    unfold match_keys
    simp only [hloop]
  · intro hagree hlt
    have hloop := match_keys_loop_eq_none s first second
      (min (first.length - s) second.length) 0
      (by intro j h1 h2; exact hagree j (by omega))
    unfold match_keys
    simp only [hloop, if_pos hlt]
  · intro hagree heq
    have hloop := match_keys_loop_eq_none s first second
      (min (first.length - s) second.length) 0
      (by intro j h1 h2; exact hagree j (by omega))
    unfold match_keys
    simp only [hloop]
    rw [if_neg (by omega), if_pos heq]
  · intro hagree hgt
    have hloop := match_keys_loop_eq_none s first second
      (min (first.length - s) second.length) 0
      (by intro j h1 h2; exact hagree j (by omega))
    unfold match_keys
    simp only [hloop]
    rw [if_neg (by omega), if_neg (by omega)]

/-- Witness for C1 at a concrete input: nibbles of "cat" vs "car"
(ASCII bytes split high-nibble-first) diverge at nibble index 5. -/
theorem C1_match_keys_correct_witness :
    match_keys 0 [6, 3, 6, 1, 7, 4] [6, 3, 6, 1, 7, 2] = KeyMatch.Partial 5 :=
  (C1_match_keys_correct 0 [6, 3, 6, 1, 7, 4] [6, 3, 6, 1, 7, 2]
    (by decide)).1 5 (by decide) (by decide) (by decide)

theorem match_keys_loop_checked_eq (start_idx : Nat) (first second : List Nat) :
    ∀ fuel i, start_idx + i + fuel ≤ first.length → i + fuel ≤ second.length →
      match_keys_loop_checked start_idx first second i fuel =
        some (match_keys_loop start_idx first second i fuel) := by
  intro fuel
  induction fuel with
  | zero => intro i _ _; rfl
  | succ k ih =>
    intro i h1 h2
    have hf : start_idx + i < first.length := by omega
    have hs : i < second.length := by omega
    have hf' : first.get? (start_idx + i) = some (first.getD (start_idx + i) 0) := by
      rw [List.get?_eq_get hf, List.getD_eq_get? ]
      rw [List.get?_eq_get hf]
      rfl
    have hs' : second.get? i = some (second.getD i 0) := by
      rw [List.get?_eq_get hs, List.getD_eq_get? ]
      rw [List.get?_eq_get hs]
      rfl
    rw [match_keys_loop_checked, match_keys_loop]
    simp only [hf', hs']
    by_cases hne : first.getD (start_idx + i) 0 ≠ second.getD i 0
    · rw [if_pos hne, if_pos hne]
    · rw [if_neg hne, if_neg hne]
      exact ih (i + 1) (by omega) (by omega)

/-- Claim C2: under the precondition start_offset ≤ length(first), the
subtraction never underflows and every nibble access of the loop is in
bounds, so the fully checked comparator succeeds and agrees with
`match_keys`, which always returns one of the four `KeyMatch` variants. -/
theorem C2_match_keys_total (s : Nat) (first second : List Nat)
    (h : s ≤ first.length) :
    match_keys_checked s first second = some (match_keys s first second) := by
  unfold match_keys_checked checked_sub match_keys
  rw [if_pos h]
  have hloop := match_keys_loop_checked_eq s first second
    (min (first.length - s) second.length) 0 (by omega) (by omega)
  simp only [hloop]
  match hm : match_keys_loop s first second 0
      (min (first.length - s) second.length) with
  | some i => rfl
  | none =>
    by_cases h1 : first.length - s < second.length
    · rw [if_pos h1, if_pos h1]
    · rw [if_neg h1, if_neg h1]
      by_cases h2 : first.length - s = second.length
      · rw [if_pos h2, if_pos h2]
      · rw [if_neg h2, if_neg h2]

/-- Witness for C2 at a concrete input. -/
theorem C2_match_keys_total_witness :
    match_keys_checked 1 [3, 4, 5] [4, 9] =
      some (match_keys 1 [3, 4, 5] [4, 9]) :=
  C2_match_keys_total 1 [3, 4, 5] [4, 9] (by decide)

theorem beBytes_foldl : ∀ (w a acc : Nat),
    (beBytes w a).foldl (fun acc d => acc * 256 + d) acc =
      acc * 256 ^ w + a % 256 ^ w := by
  intro w
  induction w with
  | zero => intro a acc; simp [beBytes, Nat.mod_one]
  | succ k ih =>
    intro a acc
    simp only [beBytes, List.foldl_cons]
    rw [ih]
    have hm : a % 256 ^ (k + 1) = a % 256 ^ k + 256 ^ k * (a / 256 ^ k % 256) := by
      rw [pow_succ]
      exact Nat.mod_mul
    rw [hm, pow_succ]
    ring

theorem beBytes_inj (w a b : Nat) (ha : a < 256 ^ w) (hb : b < 256 ^ w)
    (h : beBytes w a = beBytes w b) : a = b := by
  have hmod : a % 256 ^ w = b % 256 ^ w := by
    have h1 := beBytes_foldl w a 0
    have h2 := beBytes_foldl w b 0
    rw [h, h2] at h1
    omega
  rwa [Nat.mod_eq_of_lt ha, Nat.mod_eq_of_lt hb] at hmod

theorem beBytes_mod (w : Nat) : ∀ a, beBytes w (a % 256 ^ w) = beBytes w a := by
  induction w with
  | zero => intro a; rfl
  | succ k ih =>
    intro a
    have hpos : (0:Nat) < 256 ^ k := Nat.pow_pos (by norm_num)
    have hmm : a % 256 ^ (k + 1) = a % 256 ^ k + 256 ^ k * (a / 256 ^ k % 256) := by
      rw [pow_succ]
      exact Nat.mod_mul
    have hdiv : a % 256 ^ (k + 1) / 256 ^ k = a / 256 ^ k % 256 := by
      rw [hmm, Nat.add_mul_div_left _ _ hpos,
        Nat.div_eq_of_lt (Nat.mod_lt _ hpos), Nat.zero_add]
    have htail : beBytes k (a % 256 ^ (k + 1)) = beBytes k a := by
      rw [← ih (a % 256 ^ (k + 1)),
        Nat.mod_mod_of_dvd _ (pow_dvd_pow 256 (by omega)), ih]
    simp only [beBytes]
    rw [htail, hdiv, Nat.mod_mod_of_dvd _ dvd_rfl]

theorem beBytes_lex : ∀ (w a b : Nat), a < 256 ^ w → b < 256 ^ w → a < b →
    List.Lex (· < ·) (beBytes w a) (beBytes w b) := by
  intro w
  induction w with
  | zero =>
    intro a b ha hb hab
    simp only [pow_zero] at hb
    omega
  | succ k ih =>
    intro a b ha hb hab
    have hpos : (0:Nat) < 256 ^ k := Nat.pow_pos (by norm_num)
    have hda : a / 256 ^ k < 256 := by
      rw [Nat.div_lt_iff_lt_mul hpos]
      calc a < 256 ^ (k + 1) := ha
        _ = 256 * 256 ^ k := by ring
    have hdb : b / 256 ^ k < 256 := by
      rw [Nat.div_lt_iff_lt_mul hpos]
      calc b < 256 ^ (k + 1) := hb
        _ = 256 * 256 ^ k := by ring
    simp only [beBytes]
    by_cases hd : a / 256 ^ k = b / 256 ^ k
    · have hma : a % 256 ^ k < b % 256 ^ k := by
        have e1 := Nat.div_add_mod a (256 ^ k)
        have e2 := Nat.div_add_mod b (256 ^ k)
        rw [← e1, ← e2, hd] at hab
        exact lt_of_add_lt_add_left hab
      have tails := ih (a % 256 ^ k) (b % 256 ^ k)
        (Nat.mod_lt _ hpos) (Nat.mod_lt _ hpos) hma
      rw [← beBytes_mod k a, ← beBytes_mod k b, hd]
      exact List.Lex.cons tails
    · have hlt : a / 256 ^ k < b / 256 ^ k :=
        lt_of_le_of_ne (Nat.div_le_div_right (le_of_lt hab)) hd
      exact List.Lex.rel
        (by rw [Nat.mod_eq_of_lt hda, Nat.mod_eq_of_lt hdb]; exact hlt)

theorem signed_beBytes_inj (w : Nat) (a b : Int)
    (ha₁ : -((256:Int) ^ w / 2) ≤ a) (ha₂ : a < (256:Int) ^ w / 2)
    (hb₁ : -((256:Int) ^ w / 2) ≤ b) (hb₂ : b < (256:Int) ^ w / 2)
    (h : beBytes w (a % (256:Int) ^ w).toNat = beBytes w (b % (256:Int) ^ w).toNat) :
    a = b := by
  have hMpos : (0:Int) < 256 ^ w := by positivity
  have hae : 0 ≤ a % (256:Int) ^ w := Int.emod_nonneg a (ne_of_gt hMpos)
  have hbe : 0 ≤ b % (256:Int) ^ w := Int.emod_nonneg b (ne_of_gt hMpos)
  have hal : a % (256:Int) ^ w < 256 ^ w := Int.emod_lt_of_pos a hMpos
  have hbl : b % (256:Int) ^ w < 256 ^ w := Int.emod_lt_of_pos b hMpos
  have hcast : (((256 ^ w : Nat)) : Int) = (256:Int) ^ w := by push_cast; ring
  have hna : (a % (256:Int) ^ w).toNat < 256 ^ w :=
    (Int.toNat_lt hae).mpr (by rw [hcast]; exact hal)
  have hnb : (b % (256:Int) ^ w).toNat < 256 ^ w :=
    (Int.toNat_lt hbe).mpr (by rw [hcast]; exact hbl)
  have htn := beBytes_inj w _ _ hna hnb h
  have h' : a % (256:Int) ^ w = b % (256:Int) ^ w := by
    rw [← Int.toNat_of_nonneg hae, ← Int.toNat_of_nonneg hbe, htn]
  have h3 : (a - b) % ((256:Int) ^ w) = 0 :=
    Int.emod_eq_emod_iff_emod_sub_eq_zero.mp h'
  have h4 : ((256:Int) ^ w) ∣ (a - b) := Int.dvd_of_emod_eq_zero h3
  have h5 : |a - b| < (256:Int) ^ w := by
    rw [abs_lt]
    constructor <;> omega
  have h6 := Int.eq_zero_of_abs_lt_dvd h4 h5
  omega

/-- Claim C3: for every builtin-encoded key type (byte vectors and slices,
strings, u8, i8, u16, u32, u64, usize, i16, i32, i64, isize),
`encode_bytes` is injective on the type's value range: distinct values
never encode to the same byte sequence. -/
theorem C3_encode_bytes_injective :
    (∀ a b : List Nat, encode_bytes_vec_u8 a = encode_bytes_vec_u8 b → a = b) ∧
    (∀ a b : List Nat,
      encode_bytes_slice_u8 a = encode_bytes_slice_u8 b → a = b) ∧
    (∀ a b : List Nat, encode_bytes_string a = encode_bytes_string b → a = b) ∧
    (∀ a b : List Nat, encode_bytes_str a = encode_bytes_str b → a = b) ∧
    (∀ a b : Nat, encode_bytes_u8 a = encode_bytes_u8 b → a = b) ∧
    (∀ a b : Int, -128 ≤ a → a < 128 → -128 ≤ b → b < 128 →
      encode_bytes_i8 a = encode_bytes_i8 b → a = b) ∧
    (∀ a b : Nat, a < 256 ^ 2 → b < 256 ^ 2 →
      encode_bytes_u16 a = encode_bytes_u16 b → a = b) ∧
    (∀ a b : Nat, a < 256 ^ 4 → b < 256 ^ 4 →
      encode_bytes_u32 a = encode_bytes_u32 b → a = b) ∧
    (∀ a b : Nat, a < 256 ^ 8 → b < 256 ^ 8 →
      encode_bytes_u64 a = encode_bytes_u64 b → a = b) ∧
    (∀ a b : Nat, a < 256 ^ 8 → b < 256 ^ 8 →
      encode_bytes_usize a = encode_bytes_usize b → a = b) ∧
    (∀ a b : Int, -((256:Int) ^ 2 / 2) ≤ a → a < (256:Int) ^ 2 / 2 →
      -((256:Int) ^ 2 / 2) ≤ b → b < (256:Int) ^ 2 / 2 →
      encode_bytes_i16 a = encode_bytes_i16 b → a = b) ∧
    (∀ a b : Int, -((256:Int) ^ 4 / 2) ≤ a → a < (256:Int) ^ 4 / 2 →
      -((256:Int) ^ 4 / 2) ≤ b → b < (256:Int) ^ 4 / 2 →
      encode_bytes_i32 a = encode_bytes_i32 b → a = b) ∧
    (∀ a b : Int, -((256:Int) ^ 8 / 2) ≤ a → a < (256:Int) ^ 8 / 2 →
      -((256:Int) ^ 8 / 2) ≤ b → b < (256:Int) ^ 8 / 2 →
      encode_bytes_i64 a = encode_bytes_i64 b → a = b) ∧
    (∀ a b : Int, -((256:Int) ^ 8 / 2) ≤ a → a < (256:Int) ^ 8 / 2 →
      -((256:Int) ^ 8 / 2) ≤ b → b < (256:Int) ^ 8 / 2 →
      encode_bytes_isize a = encode_bytes_isize b → a = b) := by
  refine ⟨fun a b h => h, fun a b h => h, fun a b h => h, fun a b h => h,
    ?_, ?_, ?_, ?_, ?_, ?_, ?_, ?_, ?_, ?_⟩
  · intro a b h
    simpa [encode_bytes_u8] using h
  · intro a b ha1 ha2 hb1 hb2 h
    simp only [encode_bytes_i8, i8_as_u8, List.cons.injEq, and_true] at h
    omega
  · intro a b ha hb h
    exact beBytes_inj 2 a b ha hb h
  · intro a b ha hb h
    exact beBytes_inj 4 a b ha hb h
  · intro a b ha hb h
    exact beBytes_inj 8 a b ha hb h
  · intro a b ha hb h
    exact beBytes_inj 8 a b ha hb h
  · intro a b ha1 ha2 hb1 hb2 h
    exact signed_beBytes_inj 2 a b ha1 ha2 hb1 hb2 h
  · intro a b ha1 ha2 hb1 hb2 h
    exact signed_beBytes_inj 4 a b ha1 ha2 hb1 hb2 h
  · intro a b ha1 ha2 hb1 hb2 h
    exact signed_beBytes_inj 8 a b ha1 ha2 hb1 hb2 h
  · intro a b ha1 ha2 hb1 hb2 h
    exact signed_beBytes_inj 8 a b ha1 ha2 hb1 hb2 h

/-- Witness for C3 at a concrete input: the u16 encoder applied at 300. -/
theorem C3_encode_bytes_injective_witness : (300 : Nat) = 300 :=
  C3_encode_bytes_injective.2.2.2.2.2.2.1 300 300
    (by norm_num) (by norm_num) rfl

/-- Claim C4: for unsigned integers a < b of the same width (u8, u16, u32,
u64, usize), the big-endian byte encoding of a is lexicographically less
than that of b. -/
theorem C4_unsigned_encoding_preserves_order :
    (∀ a b : Nat, a < b →
      List.Lex (· < ·) (encode_bytes_u8 a) (encode_bytes_u8 b)) ∧
    (∀ a b : Nat, a < 256 ^ 2 → b < 256 ^ 2 → a < b →
      List.Lex (· < ·) (encode_bytes_u16 a) (encode_bytes_u16 b)) ∧
    (∀ a b : Nat, a < 256 ^ 4 → b < 256 ^ 4 → a < b →
      List.Lex (· < ·) (encode_bytes_u32 a) (encode_bytes_u32 b)) ∧
    (∀ a b : Nat, a < 256 ^ 8 → b < 256 ^ 8 → a < b →
      List.Lex (· < ·) (encode_bytes_u64 a) (encode_bytes_u64 b)) ∧
    (∀ a b : Nat, a < 256 ^ 8 → b < 256 ^ 8 → a < b →
      List.Lex (· < ·) (encode_bytes_usize a) (encode_bytes_usize b)) := by
  refine ⟨?_, ?_, ?_, ?_, ?_⟩
  · intro a b hab
    exact List.Lex.rel hab
  · intro a b ha hb hab
    exact beBytes_lex 2 a b ha hb hab
  · intro a b ha hb hab
    exact beBytes_lex 4 a b ha hb hab
  · intro a b ha hb hab
    exact beBytes_lex 8 a b ha hb hab
  · intro a b ha hb hab
    exact beBytes_lex 8 a b ha hb hab

/-- Witness for C4 at a concrete input: 3 < 1000 as u16 keys. -/
theorem C4_unsigned_encoding_preserves_order_witness :
    List.Lex (· < ·) (encode_bytes_u16 3) (encode_bytes_u16 1000) :=
  C4_unsigned_encoding_preserves_order.2.1 3 1000
    (by norm_num) (by norm_num) (by norm_num)

/-- Claim C5: `check_keys` fails (produces the panic error) exactly when
the two keys are unequal by value comparison, and returns unit with no
effect when they are equal. -/
theorem C5_check_keys_guard {K : Type} [DecidableEq K] (key1 key2 : K) :
    (check_keys key1 key2 = Except.ok () ↔ key1 = key2) ∧
    ((∃ msg, check_keys key1 key2 = Except.error msg) ↔ key1 ≠ key2) := by
  unfold check_keys
  by_cases h : key1 = key2
  · simp [h]
  · simp [h]

/-- Claim C6: the default `TrieKey::encode_bytes` body fails on every
invocation, for every key of every type: it never returns a byte
sequence, empty or otherwise. -/
theorem C6_default_encode_bytes_always_fails {α : Type} (k : α) :
    (∀ bs, default_encode_bytes k ≠ Except.ok bs) ∧
    ∃ msg, default_encode_bytes k = Except.error msg := by
  refine ⟨fun bs h => by simp [default_encode_bytes] at h, ⟨_, rfl⟩⟩

theorem from_byte_vec_length (l : List Nat) :
    (from_byte_vec l).length = 2 * l.length := by
  induction l with
  | nil => rfl
  | cons x xs ih =>
    simp only [from_byte_vec, List.flatMap_cons, List.length_append,
      List.length_cons, List.length_nil] at ih ⊢
    omega

/-- Claim C7: `TrieKey::encode` is the fixed derived operation: for every
key type implementing the contract and every key, encode is
`from_byte_vec` composed with that type's `encode_bytes`, and the
resulting nibble sequence has twice the byte length (nibble-level
granularity for free). -/
theorem C7_encode_is_derived {α : Type} (tk : TrieKey α) (k : α) :
    TrieKey.encode tk k = from_byte_vec (tk.encode_bytes k) ∧
    (TrieKey.encode tk k).length = 2 * (tk.encode_bytes k).length := by
  exact ⟨rfl, from_byte_vec_length _⟩

/-- Claim C8: the i8 encoder emits exactly one byte, the value's
two's-complement bit pattern with no sign adjustment, so negative values
do not sort numerically: encode_bytes(-1) = [0xFF] is lexicographically
greater than encode_bytes(1) = [0x01]. -/
theorem C8_i8_encoding_bit_pattern :
    (∀ a : Int, -128 ≤ a → a < 128 →
      encode_bytes_i8 a = [(a % 256).toNat] ∧
      (encode_bytes_i8 a).length = 1) ∧
    (∀ a : Int, -128 ≤ a → a < 0 → 128 ≤ (encode_bytes_i8 a).headD 0) ∧
    encode_bytes_i8 (-1) = [255] ∧
    encode_bytes_i8 1 = [1] ∧
    List.Lex (· < ·) (encode_bytes_i8 1) (encode_bytes_i8 (-1)) := by
  refine ⟨fun a _ _ => ⟨rfl, rfl⟩, ?_, by decide, by decide, by decide⟩
  intro a h1 h2
  simp only [encode_bytes_i8, i8_as_u8, List.headD_cons]
  omega

/-- Witness for C8 at a concrete input: the encoding of -5 starts with a
byte at least 128. -/
theorem C8_i8_encoding_bit_pattern_witness :
    128 ≤ (encode_bytes_i8 (-5)).headD 0 :=
  C8_i8_encoding_bit_pattern.2.1 (-5) (by norm_num) (by norm_num)

/-- Claim C9: an empty key encodes to a zero-length nibble sequence, and
`match_keys` at offset 0 classifies the empty sequence as FirstPrefix of
every non-empty sequence and as Full against the empty sequence. -/
theorem C9_empty_key (second : List Nat) :
    TrieKey.encode vec_u8_key [] = [] ∧
    TrieKey.encode string_key [] = [] ∧
    (second ≠ [] → match_keys 0 [] second = KeyMatch.FirstPrefix) ∧
    match_keys 0 [] [] = KeyMatch.Full := by
  refine ⟨rfl, rfl, ?_, by decide⟩
  intro h
  have hlen : 0 < second.length := List.length_pos.mpr h
  unfold match_keys
  simp only [List.length_nil, Nat.sub_zero, Nat.zero_min, match_keys_loop]
  rw [if_pos hlen]

/-- Witness for C9 at a concrete input. -/
theorem C9_empty_key_witness :
    match_keys 0 [] [7] = KeyMatch.FirstPrefix :=
  (C9_empty_key [7]).2.2.1 (by decide)

/-- Claim C10: `String` and `&str` keys with the same text content encode
to the identical byte sequence and hence the identical nibble sequence,
and likewise `Vec<u8>` and `&[u8]` keys with equal contents. -/
theorem C10_string_slice_encodings_agree (s v : List Nat) :
    encode_bytes_string s = encode_bytes_str s ∧
    TrieKey.encode string_key s = TrieKey.encode str_key s ∧
    encode_bytes_vec_u8 v = encode_bytes_slice_u8 v ∧
    TrieKey.encode vec_u8_key v = TrieKey.encode slice_u8_key v := by
  exact ⟨rfl, rfl, rfl, rfl⟩

/-- Witness for C5 at a concrete input: equal keys pass the guard. -/
theorem C5_check_keys_guard_witness :
    check_keys (3 : Nat) 3 = Except.ok () :=
  (C5_check_keys_guard 3 3).1.mpr rfl

/-- Witness for C6 at a concrete input. -/
theorem C6_default_encode_bytes_always_fails_witness :
    ∃ msg, default_encode_bytes (42 : Nat) = Except.error msg :=
  (C6_default_encode_bytes_always_fails 42).2

/-- Witness for C7 at a concrete input. -/
theorem C7_encode_is_derived_witness :
    TrieKey.encode vec_u8_key [1, 2] =
      from_byte_vec (vec_u8_key.encode_bytes [1, 2]) :=
  (C7_encode_is_derived vec_u8_key [1, 2]).1

/-- Witness for C10 at a concrete input. -/
theorem C10_string_slice_encodings_agree_witness :
    TrieKey.encode string_key [9] = TrieKey.encode str_key [9] :=
  (C10_string_slice_encodings_agree [9] []).2.1
